import Mathlib

/-!
Verification of the brand-matching engine of `ai_brand_tracker.py`
(repository `atrpkovic/AI-tracker`).

The Python functions `normalize_host`, `extract_urls_from_aio`,
`flatten_json` and `find_brands_in_aio` are shallowly embedded below.
Python JSON values are the inductive `Json`; Python dicts are association
lists in insertion order (keys unique for dicts produced by `json.load`);
Python sets of strings are lists in insertion order (CPython iterates a
set in hash order, which no claim depends on: only membership and
"some element" are used downstream).  Python string operations act on
code points, so Lean strings are handled through their `List Char` data.
`str.lower()` is modelled on ASCII letters (all inputs of interest are
ASCII).  External effects of `find_brands_in_aio` are explicit arguments:
the wall-clock timestamp `ts` (Python `_now_ts()`), the parsed contents of
the brands file (Python `json.load(open(brands_file))`), and the sentiment
collaborator `sent` (Python `get_llm_sentiment`, a network call, modelled
as an uninterpreted total response function).  A Python exception
escaping the call is `Except.error ()`.
-/

/-- A JSON value as produced by Python's `json.load`: `null`, booleans,
numbers, strings, arrays, objects (dicts with string keys, insertion
ordered). -/
inductive Json where
  | null : Json
  | bool (b : Bool) : Json
  | num (n : Int) : Json
  | str (s : String) : Json
  | arr (xs : List Json) : Json
  | obj (fs : List (String × Json)) : Json

/-- Python `x[i:]` / `list.drop` on code points. -/
def strDrop (s : String) (n : Nat) : String := ⟨s.data.drop n⟩

/-- Python `x[:n]` on code points. -/
def strTake (s : String) (n : Nat) : String := ⟨s.data.take n⟩

/-- Python `s.startswith(p)` on code points. -/
def strStartsWith (s p : String) : Bool := p.data.isPrefixOf s.data

/-- Python `s.endswith(p)` on code points. -/
def strEndsWith (s p : String) : Bool := p.data.isSuffixOf s.data

/-- Contiguous-sublist test on lists. -/
def listIsInfixOf (needle : List Char) : List Char → Bool
  | [] => needle.isPrefixOf []
  | c :: cs => needle.isPrefixOf (c :: cs) || listIsInfixOf needle cs

/-- Python `needle in hay` for strings: contiguous substring test. -/
def strInStr (needle hay : String) : Bool := listIsInfixOf needle.data hay.data

/-- ASCII lowercasing of one character (Python `str.lower()` restricted to
ASCII, which covers every input the tracker handles). -/
def asciiLower (c : Char) : Char :=
  if 'A' ≤ c ∧ c ≤ 'Z' then Char.ofNat (c.toNat + 32) else c

/-- Python `s.lower()` (ASCII model). -/
def lowerStr (s : String) : String := ⟨s.data.map asciiLower⟩

/-- Python `" ".join(l)`: the pieces concatenated with a single space
between consecutive ones. -/
def joinSpace (l : List String) : String :=
  ⟨(((l.map String.data).intersperse [' ']).flatten)⟩

/-- Python truthiness of a JSON value: `None`, `False`, `0`, `""`, `[]`,
`{}` are falsy. -/
def pyFalsy : Json → Bool
  | .null => true
  | .bool b => !b
  | .num n => n == 0
  | .str s => s == ""
  | .arr xs => xs.isEmpty
  | .obj fs => fs.isEmpty

/-- Python `d.get(k)` on a dict: the value stored under `k`, if any
(dict keys are unique, so first match is the match). -/
def pyLookup (fs : List (String × Json)) (k : String) : Option Json :=
  (fs.find? (fun p => p.1 == k)).map (·.2)

/-- Python `d.get(k, []) or []`: a missing or falsy value becomes the
empty list. -/
def orEmptyList : Option Json → Json
  | none => .arr []
  | some v => if pyFalsy v then .arr [] else v

/-- Python `for x in v`: elements of a list, characters of a string (each a
one-character string), keys of a dict; iterating any remaining truthy
value (a number or `True`) raises `TypeError`. -/
def pyIterElems : Json → Except Unit (List Json)
  | .arr xs => .ok xs
  | .str s => .ok (s.data.map (fun c => .str ⟨[c]⟩))
  | .obj fs => .ok (fs.map (fun p => .str p.1))
  | _ => .error ()

/-- One step of CPython `urlsplit`'s scheme splitting: the characters a
scheme may contain (ASCII letters, digits, `+`, `-`, `.`). -/
def schemeChar (c : Char) : Bool :=
  c.isAlpha || c.isDigit || c == '+' || c == '-' || c == '.'

/-- The `netloc` component CPython's `urlparse` extracts (`ai_brand_tracker.py`
line 131): strip leading C0-control/space characters, remove tab, CR and LF,
split off a syntactically valid scheme at the first `:`, then, if `//`
follows, take everything up to the next `/`, `?` or `#`.  A netloc with an
unpaired `[` or `]` raises `ValueError` (`Invalid IPv6 URL`); the validity
check CPython additionally runs on a paired bracketed host is not modelled
(no input of the tracker contains a bracketed host). -/
def urlsplitNetloc (u : String) : Except Unit String :=
  let cs := (u.data.dropWhile (fun c => c.val ≤ 0x20)).filter
    (fun c => !(c == '\t' || c == '\r' || c == '\n'))
  let rest :=
    match cs.findIdx? (· == ':') with
    | some i =>
      if 0 < i ∧ (cs.headD ' ').isAlpha ∧ (cs.take i).all schemeChar then
        cs.drop (i + 1)
      else cs
    | none => cs
  if rest.take 2 = ['/', '/'] then
    let nl := (rest.drop 2).takeWhile (fun c => !(c == '/' || c == '?' || c == '#'))
    if (nl.contains '[') != (nl.contains ']') then .error () else .ok ⟨nl⟩
  else .ok ""

/-- `normalize_host` (`ai_brand_tracker.py` lines 129-136): the lowercased
netloc with one leading `www.` stripped; the empty string when `urlparse`
raises (the `try`/`except` swallows every exception). -/
def normalize_host (u : String) : String :=
  match urlsplitNetloc u with
  | .ok h =>
    let host := lowerStr h
    if strStartsWith host "www." then strDrop host 4 else host
  | .error _ => ""

mutual

/-- `flatten_json` (`ai_brand_tracker.py` lines 173-184): every string leaf
of the payload, dicts traversed by value, lists by element, other scalars
dropped. -/
def flatten_json : Json → List String
  | .str s => [s]
  | .arr xs => flattenElems xs
  | .obj fs => flattenFields fs
  | _ => []
termination_by structural j => j

/-- The `list` branch of `flatten_json`. -/
def flattenElems : List Json → List String
  | [] => []
  | x :: xs => flatten_json x ++ flattenElems xs
termination_by structural l => l

/-- The `dict` branch of `flatten_json` (values in order). -/
def flattenFields : List (String × Json) → List String
  | [] => []
  | (_, v) :: fs => flatten_json v ++ flattenFields fs
termination_by structural l => l

end

/-- Python `set.add` on the insertion-ordered list model of a set. -/
def setAdd (us : List String) (l : String) : List String :=
  if us.contains l then us else us ++ [l]

/-- The link-collecting body shared by the three loops of
`extract_urls_from_aio`: if the item is a dict whose `"link"` value is a
string starting with `http`, add it to the set. -/
def addLinkOf (us : List String) (item : Json) : List String :=
  match item with
  | .obj fs =>
    match pyLookup fs "link" with
    | some (.str l) => if strStartsWith l "http" then setAdd us l else us
    | _ => us
  | _ => us

/-- The `text_blocks` loop body of `extract_urls_from_aio` (lines 152-169):
a non-dict block is skipped; otherwise the block's `snippet_links` items
and, when its `list` value is a list, its `list` items are scanned for
links. -/
def extractBlockLinks (us : List String) (b : Json) : Except Unit (List String) :=
  match b with
  | .obj bf => do
    let sls ← pyIterElems (orEmptyList (pyLookup bf "snippet_links"))
    let us := sls.foldl addLinkOf us
    let us := match pyLookup bf "list" with
      | some (.arr items) => items.foldl addLinkOf us
      | _ => us
    pure us
  | _ => pure us

/-- `extract_urls_from_aio` (`ai_brand_tracker.py` lines 138-171): link
strings from `references[*].link`, `text_blocks[*].snippet_links[*].link`
and `text_blocks[*].list[*].link`; a non-dict payload yields the empty
set; iterating a truthy non-iterable field value raises. -/
def extract_urls_from_aio : Json → Except Unit (List String)
  | .obj fs => do
    let refs ← pyIterElems (orEmptyList (pyLookup fs "references"))
    let urls := refs.foldl addLinkOf []
    let blocks ← pyIterElems (orEmptyList (pyLookup fs "text_blocks"))
    let urls ← blocks.foldlM extractBlockLinks urls
    pure urls
  | _ => .ok []

/-- The `[a.lower() for a in aliases]` comprehension of
`find_brands_in_aio` (line 192): lowercase every alias; iterating a
non-iterable raises `TypeError`, and `.lower()` on a non-string element
raises `AttributeError`. -/
def lowerAliases : Json → Except Unit (List String)
  | .arr xs => xs.mapM (fun a =>
      match a with
      | .str s => Except.ok (lowerStr s)
      | _ => Except.error ())
  | .str s => .ok (s.data.map (fun c => lowerStr ⟨[c]⟩))
  | .obj fs => .ok (fs.map (fun p => lowerStr p.1))
  | _ => .error ()

/-- Python dict insertion: an existing key keeps its position and gets the
new value, a new key goes to the end. -/
def dictInsert (m : List (String × List String)) (k : String) (v : List String) :
    List (String × List String) :=
  if m.any (fun p => p.1 == k) then
    m.map (fun p => if p.1 == k then (k, v) else p)
  else m ++ [(k, v)]

/-- The `brand_map` dict comprehension of `find_brands_in_aio`
(lines 191-194): for each catalog entry, key `domain.lower()` and value
`[domain.lower()] + [a.lower() for a in aliases]`; `.items()` on a
non-dict raises. -/
def build_brand_map : Json → Except Unit (List (String × List String))
  | .obj fs =>
    fs.foldlM (fun m p => do
      let aliases ← lowerAliases p.2
      pure (dictInsert m (lowerStr p.1) (lowerStr p.1 :: aliases))) []
  | _ => .error ()

/-- One output row of `find_brands_in_aio` (the 9-column record appended
at lines 235-245 and 264-274). -/
structure Row where
  ts : String
  keyword : String
  brand : String
  matchedTerm : String
  overviewText : Json
  sentiment : String
  context : String
  url : String
  source : String

/-- The `overview_text` selection of `find_brands_in_aio` (lines 200-206):
`answer`, else `snippet`, else `""` (falsy values fall through). -/
def getOverviewText (aio : List (String × Json)) : Json :=
  let a := (pyLookup aio "answer").getD (.str "")
  if pyFalsy a then
    let s := (pyLookup aio "snippet").getD (.str "")
    if pyFalsy s then .str "" else s
  else a

/-- `domain_core` (line 217): the catalog key with a leading `www.`
stripped. -/
def domainCore (domain : String) : String :=
  if strStartsWith domain "www." then strDrop domain 4 else domain

/-- The Priority-1 scan (lines 220-224): the first URL of `hosts` whose
normalized host ends (raw string suffix) with `domain_core`. -/
def matchedUrlOf (hosts : List (String × String)) (core : String) : Option String :=
  (hosts.find? (fun p => strEndsWith p.2 core)).map (·.1)

/-- The Priority-2 scan (line 253): the first term of `terms[1:]` occurring
as a substring of the flattened text. -/
def aliasOf (terms : List String) (flat_text : String) : Option String :=
  terms.tail.find? (fun t => strInStr t flat_text)

/-- The `hosts` dict of `find_brands_in_aio` (line 209): each URL paired
with its normalized host, in insertion order. -/
def mkHosts (urls : List String) : List (String × String) :=
  urls.map (fun u => (u, normalize_host u))

/-- The `flat_text` of `find_brands_in_aio` (line 210). -/
def flatTextOf (aio : List (String × Json)) : String :=
  lowerStr (joinSpace (flatten_json (.obj aio)))

/-- The loop body of `find_brands_in_aio` (lines 216-278) for one catalog
entry `(domain, terms)`, acting on the state `(results, seen)`.
Priority 1: the first URL whose normalized host ends with `domain_core`;
if one is found (a truthy string) and `(keyword, domain)` is not in
`seen`, emit the URL-evidence row and move on (`continue`).  Otherwise
Priority 2: the first alias of `terms[1:]` occurring in `flat_text`; if it
is truthy and `(keyword, domain)` is not in `seen`, emit the alias row. -/
def processDomain (ts : String) (sent : Json → String → String)
    (keyword source : String) (overview_text : Json) (urls : List String)
    (hosts : List (String × String)) (flat_text : String)
    (st : List Row × List (String × String)) (entry : String × List String) :
    List Row × List (String × String) :=
  let domain := entry.1
  let terms := entry.2
  let p2 : List Row × List (String × String) :=
    match aliasOf terms flat_text with
    | some a =>
      if a != "" && !(st.2.contains (keyword, domain)) then
        (st.1 ++ [⟨ts, keyword, domain, a, overview_text,
                   sent overview_text domain, a, urls.headD "", source⟩],
         st.2 ++ [(keyword, domain)])
      else st
    | none => st
  match matchedUrlOf hosts (domainCore domain) with
  | some u =>
    if u != "" && !(st.2.contains (keyword, domain)) then
      (st.1 ++ [⟨ts, keyword, domain, domain, overview_text,
                 sent overview_text domain, strTake u 200, u, source⟩],
       st.2 ++ [(keyword, domain)])
    else p2
  | none => p2

/-- `find_brands_in_aio` (`ai_brand_tracker.py` lines 186-280).  `ts` is the
clock value `_now_ts()` returns, `sent` the sentiment collaborator,
`brands` the parsed contents of the brands file, `aio` the (dict) overview
payload — every caller in the repository checks `isinstance(aio_json, dict)`
before calling (line 364). -/
def find_brands_in_aio (ts : String) (sent : Json → String → String)
    (brands : Json) (aio : List (String × Json)) (keyword : String)
    (source : String) : Except Unit (List Row) := do
  let brand_map ← build_brand_map brands
  let overview_text := getOverviewText aio
  let urls ← extract_urls_from_aio (.obj aio)
  let hosts := mkHosts urls
  let flat_text := flatTextOf aio
  let st := brand_map.foldl
    (processDomain ts sent keyword source overview_text urls hosts flat_text)
    ([], [])
  pure st.1

/-- A brand catalog of the documented shape (`spec.md` section 6, and the
`brands.json` sample of `aio_frontend_demo.py`): a JSON object mapping each
domain to an array of alias strings. -/
def isWfCatalog : Json → Bool
  | .obj fs => fs.all (fun p =>
      match p.2 with
      | .arr xs => xs.all (fun a => match a with | .str _ => true | _ => false)
      | _ => false)
  | _ => false

/-- The value stored under a `"link"` key of a dict item, for the
occurrence analysis of `extract_urls_from_aio`'s three loops. -/
def linkValuesOf (item : Json) : List Json :=
  match item with
  | .obj fs =>
    match pyLookup fs "link" with
    | some v => [v]
    | none => []
  | _ => []

/-- `pyIterElems` with iteration failures mapped to no elements (used only
to describe positions; `extract_urls_from_aio` itself propagates the
failure). -/
def iterOrNone (j : Json) : List Json :=
  match pyIterElems j with
  | .ok es => es
  | .error _ => []

/-- The `"link"`-key values a text block offers to `extract_urls_from_aio`:
those of its `snippet_links` items and of its `list` items. -/
def blockLinkValues : Json → List Json
  | .obj bf =>
    (iterOrNone (orEmptyList (pyLookup bf "snippet_links"))).flatMap linkValuesOf
      ++ (match pyLookup bf "list" with
          | some (.arr items) => items.flatMap linkValuesOf
          | _ => [])
  | _ => []

/-- Every value sitting at a `"link"` key in one of the three structural
positions `extract_urls_from_aio` reads: `references[*].link`,
`text_blocks[*].snippet_links[*].link`, `text_blocks[*].list[*].link`.
A string occurring in the payload but not in this list occurs only in
generic text fields. -/
def link_field_values : Json → List Json
  | .obj fs =>
    (iterOrNone (orEmptyList (pyLookup fs "references"))).flatMap linkValuesOf
      ++ (iterOrNone (orEmptyList (pyLookup fs "text_blocks"))).flatMap blockLinkValues
  | _ => []

mutual

/-- `s` occurs somewhere in the payload as a string value: a structural
occurrence predicate, independent of `flatten_json` (their agreement is
proved below). -/
def occursStr (s : String) : Json → Bool
  | .str t => t == s
  | .arr xs => occursStrElems s xs
  | .obj fs => occursStrFields s fs
  | _ => false
termination_by structural j => j

/-- `occursStr` over the elements of a JSON array. -/
def occursStrElems (s : String) : List Json → Bool
  | [] => false
  | x :: xs => occursStr s x || occursStrElems s xs
termination_by structural l => l

/-- `occursStr` over the values of a JSON object. -/
def occursStrFields (s : String) : List (String × Json) → Bool
  | [] => false
  | (_, v) :: fs => occursStr s v || occursStrFields s fs
termination_by structural l => l

end

/-- A row with its timestamp column blanked (to state which columns the
clock reading can influence). -/
def eraseTs (r : Row) : Row := { r with ts := "" }

/-- Modelled from the claim C9: the loop body of `find_brands_in_aio` with
the `seen` set (and its two membership tests) removed; everything else is
the body of `processDomain`. -/
def processDomainNoSeen (ts : String) (sent : Json → String → String)
    (keyword source : String) (overview_text : Json) (urls : List String)
    (hosts : List (String × String)) (flat_text : String)
    (results : List Row) (entry : String × List String) : List Row :=
  let domain := entry.1
  let terms := entry.2
  let p2 : List Row :=
    match aliasOf terms flat_text with
    | some a =>
      if a != "" then
        results ++ [⟨ts, keyword, domain, a, overview_text,
                     sent overview_text domain, a, urls.headD "", source⟩]
      else results
    | none => results
  match matchedUrlOf hosts (domainCore domain) with
  | some u =>
    if u != "" then
      results ++ [⟨ts, keyword, domain, domain, overview_text,
                   sent overview_text domain, strTake u 200, u, source⟩]
    else p2
  | none => p2

/-- Modelled from the claim C9: `find_brands_in_aio` with the `seen` set
removed. -/
def find_brands_in_aio_no_seen (ts : String) (sent : Json → String → String)
    (brands : Json) (aio : List (String × Json)) (keyword : String)
    (source : String) : Except Unit (List Row) := do
  let brand_map ← build_brand_map brands
  let overview_text := getOverviewText aio
  let urls ← extract_urls_from_aio (.obj aio)
  let hosts := mkHosts urls
  let flat_text := flatTextOf aio
  pure (brand_map.foldl
    (processDomainNoSeen ts sent keyword source overview_text urls hosts flat_text)
    [])

/-! ## Lemmas -/

@[simp] theorem flatten_json_null : flatten_json .null = [] := rfl

@[simp] theorem flatten_json_bool (b : Bool) : flatten_json (.bool b) = [] := rfl

@[simp] theorem flatten_json_num (n : Int) : flatten_json (.num n) = [] := rfl

@[simp] theorem flatten_json_str (s : String) : flatten_json (.str s) = [s] := rfl

@[simp] theorem flatten_json_arr_nil : flatten_json (.arr []) = [] := rfl

@[simp] theorem flatten_json_arr_cons (x : Json) (xs : List Json) :
    flatten_json (.arr (x :: xs)) = flatten_json x ++ flatten_json (.arr xs) := rfl

@[simp] theorem flatten_json_obj_nil : flatten_json (.obj []) = [] := rfl

@[simp] theorem flatten_json_obj_cons (k : String) (v : Json)
    (fs : List (String × Json)) :
    flatten_json (.obj ((k, v) :: fs)) = flatten_json v ++ flatten_json (.obj fs) := rfl

@[simp] theorem occursStr_null (s : String) : occursStr s .null = false := rfl

@[simp] theorem occursStr_bool (s : String) (b : Bool) :
    occursStr s (.bool b) = false := rfl

@[simp] theorem occursStr_num (s : String) (n : Int) :
    occursStr s (.num n) = false := rfl

@[simp] theorem occursStr_str (s t : String) :
    occursStr s (.str t) = (t == s) := rfl

@[simp] theorem occursStr_arr_nil (s : String) : occursStr s (.arr []) = false := rfl

@[simp] theorem occursStr_arr_cons (s : String) (x : Json) (xs : List Json) :
    occursStr s (.arr (x :: xs)) = (occursStr s x || occursStr s (.arr xs)) := rfl

@[simp] theorem occursStr_obj_nil (s : String) : occursStr s (.obj []) = false := rfl

@[simp] theorem occursStr_obj_cons (s k : String) (v : Json)
    (fs : List (String × Json)) :
    occursStr s (.obj ((k, v) :: fs)) = (occursStr s v || occursStr s (.obj fs)) := rfl

/-! Helper lemmas. -/

@[simp] theorem exceptBindOk {α β : Type} (a : α) (f : α → Except Unit β) :
    (Except.ok a >>= f) = f a := rfl

@[simp] theorem exceptBindError {α β : Type} (f : α → Except Unit β) :
    ((Except.error () : Except Unit α) >>= f) = Except.error () := rfl

theorem mem_setAdd {us : List String} {l s : String} (h : s ∈ setAdd us l) :
    s ∈ us ∨ s = l := by
  unfold setAdd at h
  split at h
  · exact Or.inl h
  · rcases List.mem_append.mp h with h' | h'
    · exact Or.inl h'
    · exact Or.inr (List.mem_singleton.mp h')

theorem pyLookup_mem {fs : List (String × Json)} {k : String} {v : Json}
    (h : pyLookup fs k = some v) : (k, v) ∈ fs := by
  unfold pyLookup at h
  cases hf : fs.find? (fun p => p.1 == k) with
  | none => rw [hf] at h; exact absurd h (by simp)
  | some p =>
    rw [hf] at h
    have hp := List.find?_some hf
    have hm := List.mem_of_find?_eq_some hf
    have h1 : p.1 = k := by simpa using hp
    have h2 : p.2 = v := by simpa using h
    have : p = (k, v) := by
      cases p; simp_all
    rwa [this] at hm

/-- An object element of an iterated value can only come from a JSON
array (iterating a string yields one-character strings, a dict its keys). -/
theorem pyIterElems_obj {v : Json} {es : List Json} {bf : List (String × Json)}
    (h : pyIterElems v = .ok es) (hm : Json.obj bf ∈ es) : v = Json.arr es := by
  cases v with
  | arr xs => simp [pyIterElems] at h; rw [h]
  | str s =>
    simp [pyIterElems] at h
    subst h
    rcases List.mem_map.mp hm with ⟨c, _, hc⟩
    exact absurd hc (by simp)
  | obj fs =>
    simp [pyIterElems] at h
    subst h
    rcases List.mem_map.mp hm with ⟨c, _, hc⟩
    exact absurd hc (by simp)
  | null => exact absurd h (by simp [pyIterElems])
  | bool b => exact absurd h (by simp [pyIterElems])
  | num n => exact absurd h (by simp [pyIterElems])

theorem orEmptyList_cases (fs : List (String × Json)) (k : String) :
    orEmptyList (pyLookup fs k) = Json.arr [] ∨
      pyLookup fs k = some (orEmptyList (pyLookup fs k)) := by
  unfold orEmptyList
  cases h : pyLookup fs k with
  | none => exact Or.inl rfl
  | some v =>
    by_cases hv : pyFalsy v
    · simp [hv]
    · simp [hv]

theorem mem_flattenFields {fs : List (String × Json)} {k : String} {v : Json}
    {s : String} (hm : (k, v) ∈ fs) (hs : s ∈ flatten_json v) :
    s ∈ flattenFields fs := by
  induction fs with
  | nil => cases hm
  | cons p rest ih =>
    rcases List.mem_cons.mp hm with h | h
    · subst h
      simp only [flattenFields, List.mem_append]
      exact Or.inl hs
    · obtain ⟨k', v'⟩ := p
      simp only [flattenFields, List.mem_append]
      exact Or.inr (ih h)

theorem mem_flatten_obj_of_field {fs : List (String × Json)} {k : String}
    {v : Json} {s : String} (hm : (k, v) ∈ fs) (hs : s ∈ flatten_json v) :
    s ∈ flatten_json (Json.obj fs) :=
  mem_flattenFields hm hs

theorem mem_flattenElems {xs : List Json} {x : Json} {s : String}
    (hm : x ∈ xs) (hs : s ∈ flatten_json x) : s ∈ flattenElems xs := by
  induction xs with
  | nil => cases hm
  | cons y rest ih =>
    rcases List.mem_cons.mp hm with h | h
    · subst h
      simp only [flattenElems, List.mem_append]
      exact Or.inl hs
    · simp only [flattenElems, List.mem_append]
      exact Or.inr (ih h)

theorem mem_flatten_arr_of_elem {xs : List Json} {x : Json} {s : String}
    (hm : x ∈ xs) (hs : s ∈ flatten_json x) : s ∈ flatten_json (Json.arr xs) :=
  mem_flattenElems hm hs

mutual

theorem occursStr_iff_flatten (s : String) :
    (p : Json) → (occursStr s p = true ↔ s ∈ flatten_json p)
  | .null => by simp
  | .bool b => by simp
  | .num n => by simp
  | .str t => by
    simp only [occursStr_str, flatten_json_str, beq_iff_eq, List.mem_singleton]
    exact eq_comm
  | .arr xs => by
    simpa [occursStr, flatten_json] using occursStrElems_iff_flattenElems s xs
  | .obj fs => by
    simpa [occursStr, flatten_json] using occursStrFields_iff_flattenFields s fs
termination_by structural p => p

theorem occursStrElems_iff_flattenElems (s : String) :
    (xs : List Json) → (occursStrElems s xs = true ↔ s ∈ flattenElems xs)
  | [] => by simp [occursStrElems, flattenElems]
  | x :: xs => by
    rw [occursStrElems, flattenElems]
    rw [Bool.or_eq_true, List.mem_append]
    exact or_congr (occursStr_iff_flatten s x) (occursStrElems_iff_flattenElems s xs)
termination_by structural l => l

theorem occursStrFields_iff_flattenFields (s : String) :
    (fs : List (String × Json)) →
      (occursStrFields s fs = true ↔ s ∈ flattenFields fs)
  | [] => by simp [occursStrFields, flattenFields]
  | (k, v) :: fs => by
    rw [occursStrFields, flattenFields]
    rw [Bool.or_eq_true, List.mem_append]
    exact or_congr (occursStr_iff_flatten s v) (occursStrFields_iff_flattenFields s fs)
termination_by structural l => l

end

theorem mem_addLinkOf {us : List String} {it : Json} {s : String}
    (h : s ∈ addLinkOf us it) :
    s ∈ us ∨ ∃ fs, it = Json.obj fs ∧ pyLookup fs "link" = some (.str s) ∧
      strStartsWith s "http" = true := by
  unfold addLinkOf at h
  split at h
  · rename_i fs
    split at h
    · rename_i l hlk
      split at h
      · rename_i hs
        rcases mem_setAdd h with h' | h'
        · exact Or.inl h'
        · subst h'
          exact Or.inr ⟨fs, rfl, hlk, hs⟩
      · exact Or.inl h
    · exact Or.inl h
  · exact Or.inl h

theorem mem_foldl_addLinkOf {s : String} :
    ∀ (items : List Json) (us : List String), s ∈ items.foldl addLinkOf us →
      s ∈ us ∨ ∃ fs, Json.obj fs ∈ items ∧ pyLookup fs "link" = some (.str s) ∧
        strStartsWith s "http" = true := by
  intro items
  induction items with
  | nil => intro us h; exact Or.inl h
  | cons it rest ih =>
    intro us h
    rw [List.foldl_cons] at h
    rcases ih (addLinkOf us it) h with h' | ⟨fs, hmem, hlk, hh⟩
    · rcases mem_addLinkOf h' with h'' | ⟨fs, heq, hlk, hh⟩
      · exact Or.inl h''
      · subst heq
        exact Or.inr ⟨fs, List.mem_cons_self _ _, hlk, hh⟩
    · exact Or.inr ⟨fs, List.mem_cons_of_mem _ hmem, hlk, hh⟩

theorem iterOrNone_eq {v : Json} {es : List Json} (h : pyIterElems v = .ok es) :
    iterOrNone v = es := by
  unfold iterOrNone
  rw [h]

theorem linkValuesOf_mem {fs' : List (String × Json)} {v : Json}
    (h : pyLookup fs' "link" = some v) : v ∈ linkValuesOf (Json.obj fs') := by
  have hred : linkValuesOf (Json.obj fs')
      = (match pyLookup fs' "link" with | some v => [v] | none => []) := rfl
  rw [hred, h]
  exact List.mem_singleton.mpr rfl

/-- If iterating the `or []`-guarded value of key `k` produced a list with a
dict element, then `fs` really stores the array `es` under `k`. -/
theorem lookup_arr_of_iter_obj {fs : List (String × Json)} {k : String}
    {es : List Json} {bf : List (String × Json)}
    (hit : pyIterElems (orEmptyList (pyLookup fs k)) = .ok es)
    (hm : Json.obj bf ∈ es) : (k, Json.arr es) ∈ fs := by
  rcases orEmptyList_cases fs k with hc | hc
  · rw [hc] at hit
    have : es = [] := by
      have h' : Except.ok ([] : List Json) = Except.ok es := hit
      exact (Except.ok.inj h').symm
    subst this
    cases hm
  · have harr := pyIterElems_obj hit hm
    rw [harr] at hc
    exact pyLookup_mem hc

/-- Generic origin principle for `foldlM` over `Except`: every element of a
successful fold's result was in the initial accumulator or is accounted for
by some list element. -/
theorem foldlM_except_mem {α : Type} {Q : α → String → Prop}
    {step : List String → α → Except Unit (List String)}
    (hstep : ∀ us b us', step us b = .ok us' → ∀ s ∈ us', s ∈ us ∨ Q b s) :
    ∀ (bs : List α) (us₀ us' : List String),
      List.foldlM step us₀ bs = .ok us' → ∀ s ∈ us', s ∈ us₀ ∨ ∃ b ∈ bs, Q b s := by
  intro bs
  induction bs with
  | nil =>
    intro us₀ us' h s hs
    have : us₀ = us' := Except.ok.inj h
    subst this
    exact Or.inl hs
  | cons b rest ih =>
    intro us₀ us' h s hs
    rw [List.foldlM_cons] at h
    cases h₁ : step us₀ b with
    | error e => rw [h₁] at h; cases e; exact absurd h (by simp)
    | ok us₁ =>
      rw [h₁] at h
      rw [exceptBindOk] at h
      rcases ih us₁ us' h s hs with h' | ⟨b', hb', hq⟩
      · rcases hstep us₀ b us₁ h₁ s h' with h'' | hq
        · exact Or.inl h''
        · exact Or.inr ⟨b, List.mem_cons_self _ _, hq⟩
      · exact Or.inr ⟨b', List.mem_cons_of_mem _ hb', hq⟩

theorem extractBlockLinks_mem {us us' : List String} {b : Json} {s : String}
    (h : extractBlockLinks us b = Except.ok us') (hs : s ∈ us') :
    s ∈ us ∨ ∃ bf, b = Json.obj bf ∧
      ((∃ sls fs', pyIterElems (orEmptyList (pyLookup bf "snippet_links")) = .ok sls ∧
          Json.obj fs' ∈ sls ∧ pyLookup fs' "link" = some (.str s) ∧
          strStartsWith s "http" = true) ∨
       (∃ items fs', pyLookup bf "list" = some (.arr items) ∧
          Json.obj fs' ∈ items ∧ pyLookup fs' "link" = some (.str s) ∧
          strStartsWith s "http" = true)) := by
  cases b with
  | obj bf =>
    simp only [extractBlockLinks] at h
    cases hsl : pyIterElems (orEmptyList (pyLookup bf "snippet_links")) with
    | error e => cases e; rw [hsl] at h; exact absurd h (by simp)
    | ok sls =>
      rw [hsl] at h
      simp only [exceptBindOk] at h
      cases hli : pyLookup bf "list" with
      | none =>
        rw [hli] at h
        have hval : sls.foldl addLinkOf us = us' := Except.ok.inj h
        rw [← hval] at hs
        rcases mem_foldl_addLinkOf sls us hs with h' | ⟨fs', hm, hlk, hh⟩
        · exact Or.inl h'
        · exact Or.inr ⟨bf, rfl, Or.inl ⟨sls, fs', hsl, hm, hlk, hh⟩⟩
      | some v =>
        rw [hli] at h
        cases v with
        | arr items =>
          have hval : items.foldl addLinkOf (sls.foldl addLinkOf us) = us' :=
            Except.ok.inj h
          rw [← hval] at hs
          rcases mem_foldl_addLinkOf items _ hs with h' | ⟨fs', hm, hlk, hh⟩
          · rcases mem_foldl_addLinkOf sls us h' with h'' | ⟨fs', hm, hlk, hh⟩
            · exact Or.inl h''
            · exact Or.inr ⟨bf, rfl, Or.inl ⟨sls, fs', hsl, hm, hlk, hh⟩⟩
          · exact Or.inr ⟨bf, rfl, Or.inr ⟨items, fs', hli, hm, hlk, hh⟩⟩
        | null =>
          have hval : sls.foldl addLinkOf us = us' := Except.ok.inj h
          rw [← hval] at hs
          rcases mem_foldl_addLinkOf sls us hs with h' | ⟨fs', hm, hlk, hh⟩
          · exact Or.inl h'
          · exact Or.inr ⟨bf, rfl, Or.inl ⟨sls, fs', hsl, hm, hlk, hh⟩⟩
        | bool c =>
          have hval : sls.foldl addLinkOf us = us' := Except.ok.inj h
          rw [← hval] at hs
          rcases mem_foldl_addLinkOf sls us hs with h' | ⟨fs', hm, hlk, hh⟩
          · exact Or.inl h'
          · exact Or.inr ⟨bf, rfl, Or.inl ⟨sls, fs', hsl, hm, hlk, hh⟩⟩
        | num n =>
          have hval : sls.foldl addLinkOf us = us' := Except.ok.inj h
          rw [← hval] at hs
          rcases mem_foldl_addLinkOf sls us hs with h' | ⟨fs', hm, hlk, hh⟩
          · exact Or.inl h'
          · exact Or.inr ⟨bf, rfl, Or.inl ⟨sls, fs', hsl, hm, hlk, hh⟩⟩
        | str t =>
          have hval : sls.foldl addLinkOf us = us' := Except.ok.inj h
          rw [← hval] at hs
          rcases mem_foldl_addLinkOf sls us hs with h' | ⟨fs', hm, hlk, hh⟩
          · exact Or.inl h'
          · exact Or.inr ⟨bf, rfl, Or.inl ⟨sls, fs', hsl, hm, hlk, hh⟩⟩
        | obj gs =>
          have hval : sls.foldl addLinkOf us = us' := Except.ok.inj h
          rw [← hval] at hs
          rcases mem_foldl_addLinkOf sls us hs with h' | ⟨fs', hm, hlk, hh⟩
          · exact Or.inl h'
          · exact Or.inr ⟨bf, rfl, Or.inl ⟨sls, fs', hsl, hm, hlk, hh⟩⟩
  | null =>
    have : us = us' := Except.ok.inj h
    subst this; exact Or.inl hs
  | bool c =>
    have : us = us' := Except.ok.inj h
    subst this; exact Or.inl hs
  | num n =>
    have : us = us' := Except.ok.inj h
    subst this; exact Or.inl hs
  | str t =>
    have : us = us' := Except.ok.inj h
    subst this; exact Or.inl hs
  | arr xs =>
    have : us = us' := Except.ok.inj h
    subst this; exact Or.inl hs

/-- Every string a successful `extract_urls_from_aio` returns starts with
`http`, sits at one of the three recognized `"link"` positions, and is a
string leaf of the payload. -/
theorem extract_origin {p : Json} {us : List String}
    (h : extract_urls_from_aio p = .ok us) :
    ∀ s ∈ us, strStartsWith s "http" = true ∧ Json.str s ∈ link_field_values p ∧
      s ∈ flatten_json p := by
  intro s hs
  cases p with
  | obj fs =>
    simp only [extract_urls_from_aio] at h
    cases hrefs : pyIterElems (orEmptyList (pyLookup fs "references")) with
    | error e => cases e; rw [hrefs] at h; exact absurd h (by simp)
    | ok refs =>
      rw [hrefs] at h
      simp only [exceptBindOk] at h
      cases hblocks : pyIterElems (orEmptyList (pyLookup fs "text_blocks")) with
      | error e => cases e; rw [hblocks] at h; exact absurd h (by simp)
      | ok blocks =>
        rw [hblocks] at h
        simp only [exceptBindOk] at h
        cases hfold : blocks.foldlM extractBlockLinks (refs.foldl addLinkOf []) with
        | error e => cases e; rw [hfold] at h; exact absurd h (by simp)
        | ok us' =>
          rw [hfold] at h
          simp only [exceptBindOk] at h
          have hus : us' = us := Except.ok.inj h
          subst hus
          have step : ∀ (a : List String) (b : Json) (a' : List String),
              extractBlockLinks a b = .ok a' → ∀ t ∈ a', t ∈ a ∨
                (∃ bf, b = Json.obj bf ∧
                  ((∃ sls fs', pyIterElems (orEmptyList (pyLookup bf "snippet_links"))
                      = .ok sls ∧ Json.obj fs' ∈ sls ∧
                      pyLookup fs' "link" = some (.str t) ∧
                      strStartsWith t "http" = true) ∨
                   (∃ items fs', pyLookup bf "list" = some (.arr items) ∧
                      Json.obj fs' ∈ items ∧ pyLookup fs' "link" = some (.str t) ∧
                      strStartsWith t "http" = true))) :=
            fun a b a' ha t ht => extractBlockLinks_mem ha ht
          rcases foldlM_except_mem step blocks _ _ hfold s hs with h₁ | ⟨b, hbmem, bf, hbeq, hq⟩
          · -- the string came from the references loop
            rcases mem_foldl_addLinkOf refs _ h₁ with h₂ | ⟨rfs, hrmem, hlk, hh⟩
            · cases h₂
            · refine ⟨hh, ?_, ?_⟩
              · have hlfv : link_field_values (.obj fs)
                    = (iterOrNone (orEmptyList (pyLookup fs "references"))).flatMap linkValuesOf
                      ++ (iterOrNone (orEmptyList (pyLookup fs "text_blocks"))).flatMap blockLinkValues := rfl
                rw [hlfv, iterOrNone_eq hrefs]
                refine List.mem_append.mpr (Or.inl ?_)
                exact List.mem_flatMap.mpr ⟨.obj rfs, hrmem, linkValuesOf_mem hlk⟩
              · have hfield := lookup_arr_of_iter_obj hrefs hrmem
                exact mem_flatten_obj_of_field hfield
                  (mem_flatten_arr_of_elem hrmem
                    (mem_flatten_obj_of_field (pyLookup_mem hlk) (by simp)))
          · -- the string came from a text block
            subst hbeq
            have hfieldTB := lookup_arr_of_iter_obj hblocks hbmem
            rcases hq with ⟨sls, fs', hsl, hslmem, hlk, hh⟩ | ⟨items, fs', hli, hlimem, hlk, hh⟩
            · refine ⟨hh, ?_, ?_⟩
              · have hlfv : link_field_values (.obj fs)
                    = (iterOrNone (orEmptyList (pyLookup fs "references"))).flatMap linkValuesOf
                      ++ (iterOrNone (orEmptyList (pyLookup fs "text_blocks"))).flatMap blockLinkValues := rfl
                rw [hlfv, iterOrNone_eq hblocks]
                refine List.mem_append.mpr (Or.inr ?_)
                refine List.mem_flatMap.mpr ⟨.obj bf, hbmem, ?_⟩
                have hblv : blockLinkValues (.obj bf)
                    = (iterOrNone (orEmptyList (pyLookup bf "snippet_links"))).flatMap linkValuesOf
                      ++ (match pyLookup bf "list" with
                          | some (.arr items) => items.flatMap linkValuesOf
                          | _ => []) := rfl
                rw [hblv, iterOrNone_eq hsl]
                refine List.mem_append.mpr (Or.inl ?_)
                exact List.mem_flatMap.mpr ⟨.obj fs', hslmem, linkValuesOf_mem hlk⟩
              · have hfieldSL := lookup_arr_of_iter_obj hsl hslmem
                exact mem_flatten_obj_of_field hfieldTB
                  (mem_flatten_arr_of_elem hbmem
                    (mem_flatten_obj_of_field hfieldSL
                      (mem_flatten_arr_of_elem hslmem
                        (mem_flatten_obj_of_field (pyLookup_mem hlk) (by simp)))))
            · refine ⟨hh, ?_, ?_⟩
              · have hlfv : link_field_values (.obj fs)
                    = (iterOrNone (orEmptyList (pyLookup fs "references"))).flatMap linkValuesOf
                      ++ (iterOrNone (orEmptyList (pyLookup fs "text_blocks"))).flatMap blockLinkValues := rfl
                rw [hlfv, iterOrNone_eq hblocks]
                refine List.mem_append.mpr (Or.inr ?_)
                refine List.mem_flatMap.mpr ⟨.obj bf, hbmem, ?_⟩
                have hblv : blockLinkValues (.obj bf)
                    = (iterOrNone (orEmptyList (pyLookup bf "snippet_links"))).flatMap linkValuesOf
                      ++ (match pyLookup bf "list" with
                          | some (.arr items) => items.flatMap linkValuesOf
                          | _ => []) := rfl
                rw [hblv, hli]
                refine List.mem_append.mpr (Or.inr ?_)
                exact List.mem_flatMap.mpr ⟨.obj fs', hlimem, linkValuesOf_mem hlk⟩
              · have hfieldLI := pyLookup_mem hli
                exact mem_flatten_obj_of_field hfieldTB
                  (mem_flatten_arr_of_elem hbmem
                    (mem_flatten_obj_of_field hfieldLI
                      (mem_flatten_arr_of_elem hlimem
                        (mem_flatten_obj_of_field (pyLookup_mem hlk) (by simp)))))
  | null =>
    have : ([] : List String) = us := Except.ok.inj h
    rw [← this] at hs; cases hs
  | bool b =>
    have : ([] : List String) = us := Except.ok.inj h
    rw [← this] at hs; cases hs
  | num n =>
    have : ([] : List String) = us := Except.ok.inj h
    rw [← this] at hs; cases hs
  | str t =>
    have : ([] : List String) = us := Except.ok.inj h
    rw [← this] at hs; cases hs
  | arr xs =>
    have : ([] : List String) = us := Except.ok.inj h
    rw [← this] at hs; cases hs

@[simp] theorem exceptPureBind {α β : Type} (a : α) (f : α → Except Unit β) :
    ((pure a : Except Unit α) >>= f) = f a := rfl

theorem dictInsert_keys_nodup {m : List (String × List String)} {k : String}
    {v : List String} (h : (m.map Prod.fst).Nodup) :
    ((dictInsert m k v).map Prod.fst).Nodup := by
  unfold dictInsert
  split
  · have heq : (m.map (fun p => if p.1 == k then (k, v) else p)).map Prod.fst
        = m.map Prod.fst := by
      rw [List.map_map]
      apply List.map_congr_left
      intro p hp
      by_cases hpk : p.1 == k
      · simp only [Function.comp_apply, if_pos hpk]
        exact (eq_of_beq hpk).symm
      · simp only [Function.comp_apply, if_neg hpk]
    rw [heq]
    exact h
  · rename_i hany
    have hk : k ∉ m.map Prod.fst := by
      intro hmem
      rcases List.mem_map.mp hmem with ⟨p, hp, hpk⟩
      exact hany (List.any_eq_true.mpr ⟨p, hp, by simp [hpk]⟩)
    rw [List.map_append]
    rw [List.nodup_append]
    refine ⟨h, List.nodup_singleton _, ?_⟩
    intro a ha hb
    simp only [List.map_cons, List.map_nil, List.mem_singleton] at hb
    subst hb
    exact hk ha

theorem build_fold_nodup :
    ∀ (fs : List (String × Json)) (m₀ m : List (String × List String)),
      (m₀.map Prod.fst).Nodup →
      (fs.foldlM (fun m p => do
          let aliases ← lowerAliases p.2
          pure (dictInsert m (lowerStr p.1) (lowerStr p.1 :: aliases))) m₀) = .ok m →
      (m.map Prod.fst).Nodup := by
  intro fs
  induction fs with
  | nil =>
    intro m₀ m h₀ h
    have : m₀ = m := Except.ok.inj h
    subst this
    exact h₀
  | cons p rest ih =>
    intro m₀ m h₀ h
    rw [List.foldlM_cons] at h
    cases hla : lowerAliases p.2 with
    | error e => cases e; rw [hla] at h; exact absurd h (by simp)
    | ok al =>
      rw [hla] at h
      simp only [exceptBindOk, exceptPureBind] at h
      exact ih _ m (dictInsert_keys_nodup h₀) h

/-- The keys of `brand_map` are distinct: a Python dict comprehension
cannot produce a duplicate key. -/
theorem build_brand_map_keys_nodup {brands : Json}
    {m : List (String × List String)} (h : build_brand_map brands = .ok m) :
    (m.map Prod.fst).Nodup := by
  cases brands with
  | obj fs =>
    simp only [build_brand_map] at h
    exact build_fold_nodup fs [] m (by simp) h
  | null => exact absurd h (by simp [build_brand_map])
  | bool b => exact absurd h (by simp [build_brand_map])
  | num n => exact absurd h (by simp [build_brand_map])
  | str t => exact absurd h (by simp [build_brand_map])
  | arr xs => exact absurd h (by simp [build_brand_map])

theorem lowerAliases_ok_of_strings {xs : List Json}
    (h : xs.all (fun a => match a with | .str _ => true | _ => false) = true) :
    ∃ as, lowerAliases (.arr xs) = .ok as := by
  induction xs with
  | nil => exact ⟨[], rfl⟩
  | cons x rest ih =>
    rw [List.all_cons, Bool.and_eq_true] at h
    obtain ⟨hx, hrest⟩ := h
    rcases ih hrest with ⟨as, has⟩
    cases x with
    | str t =>
      refine ⟨lowerStr t :: as, ?_⟩
      simp only [lowerAliases, List.mapM_cons] at has ⊢
      cases hm : List.mapM (fun a => match a with
          | Json.str s => Except.ok (lowerStr s)
          | _ => Except.error ()) rest with
      | error e => rw [hm] at has; cases e; exact absurd has (by simp)
      | ok bs =>
        rw [hm] at has
        simp only [exceptBindOk, exceptPureBind] at has ⊢
        have : bs = as := by
          have h' : Except.ok bs = Except.ok as := has
          exact Except.ok.inj h'
        rw [this]
        rfl
    | null => exact absurd hx (by simp)
    | bool b => exact absurd hx (by simp)
    | num n => exact absurd hx (by simp)
    | arr ys => exact absurd hx (by simp)
    | obj gs => exact absurd hx (by simp)

theorem build_ok_of_wf {brands : Json} (h : isWfCatalog brands = true) :
    ∃ m, build_brand_map brands = .ok m := by
  cases brands with
  | obj fs =>
    simp only [isWfCatalog] at h
    simp only [build_brand_map]
    suffices hgen : ∀ (gs : List (String × Json)) (m₀ : List (String × List String)),
        gs.all (fun p => match p.2 with
          | .arr xs => xs.all (fun a => match a with | .str _ => true | _ => false)
          | _ => false) = true →
        ∃ m, (gs.foldlM (fun m p => do
            let aliases ← lowerAliases p.2
            pure (dictInsert m (lowerStr p.1) (lowerStr p.1 :: aliases))) m₀) = .ok m by
      exact hgen fs [] h
    intro gs
    induction gs with
    | nil => intro m₀ _; exact ⟨m₀, rfl⟩
    | cons p rest ih =>
      intro m₀ hall
      rw [List.all_cons, Bool.and_eq_true] at hall
      obtain ⟨hp, hrest⟩ := hall
      cases hv : p.2 with
      | arr xs =>
        rw [hv] at hp
        rcases lowerAliases_ok_of_strings hp with ⟨as, has⟩
        rcases ih _ hrest with ⟨m, hm⟩
        refine ⟨m, ?_⟩
        rw [List.foldlM_cons, hv, has]
        simp only [exceptBindOk, exceptPureBind]
        exact hm
      | null => rw [hv] at hp; exact absurd hp (by simp)
      | bool b => rw [hv] at hp; exact absurd hp (by simp)
      | num n => rw [hv] at hp; exact absurd hp (by simp)
      | str t => rw [hv] at hp; exact absurd hp (by simp)
      | obj hs => rw [hv] at hp; exact absurd hp (by simp)
  | null => exact absurd h (by simp [isWfCatalog])
  | bool b => exact absurd h (by simp [isWfCatalog])
  | num n => exact absurd h (by simp [isWfCatalog])
  | str t => exact absurd h (by simp [isWfCatalog])
  | arr xs => exact absurd h (by simp [isWfCatalog])

theorem matchedUrlOf_mem {hosts : List (String × String)} {core u : String}
    (h : matchedUrlOf hosts core = some u) :
    ∃ p ∈ hosts, p.1 = u ∧ strEndsWith p.2 core = true := by
  unfold matchedUrlOf at h
  cases hf : hosts.find? (fun p => strEndsWith p.2 core) with
  | none => rw [hf] at h; exact absurd h (by simp)
  | some p =>
    rw [hf] at h
    have hp := List.find?_some hf
    have hm := List.mem_of_find?_eq_some hf
    have h1 : p.1 = u := by simpa using h
    exact ⟨p, hm, h1, hp⟩

theorem matchedUrlOf_none_of_not_any {hosts : List (String × String)} {core : String}
    (h : hosts.all (fun p => !strEndsWith p.2 core) = true) :
    matchedUrlOf hosts core = none := by
  unfold matchedUrlOf
  have hf : hosts.find? (fun p => strEndsWith p.2 core) = none := by
    rw [List.find?_eq_none]
    intro p hp
    have := List.all_eq_true.mp h p hp
    simp at this
    simp [this]
  rw [hf]
  rfl

section ProcessDomainLemmas

variable (ts : String) (sent : Json → String → String) (keyword source : String)
  (overview_text : Json) (urls : List String) (hosts : List (String × String))
  (flat_text : String)

/-- Each loop iteration of `find_brands_in_aio` either leaves the state
unchanged or appends exactly one row for the current domain (and its
`seen` pair); an appended row carries `matchedTerm = domain` unless
Priority 1 found no truthy URL. -/
theorem processDomain_shape (st : List Row × List (String × String))
    (e : String × List String) :
    processDomain ts sent keyword source overview_text urls hosts flat_text st e = st ∨
    ∃ r : Row, r.brand = e.1 ∧ st.2.contains (keyword, e.1) = false ∧
      processDomain ts sent keyword source overview_text urls hosts flat_text st e
        = (st.1 ++ [r], st.2 ++ [(keyword, e.1)]) ∧
      (r.matchedTerm = e.1 ∨ matchedUrlOf hosts (domainCore e.1) = none ∨
        matchedUrlOf hosts (domainCore e.1) = some "") := by
  simp only [processDomain]
  split
  · rename_i u hmu
    split
    · rename_i hc
      rw [Bool.and_eq_true, Bool.not_eq_true'] at hc
      exact Or.inr ⟨_, rfl, hc.2, rfl, Or.inl rfl⟩
    · rename_i hc
      split
      · rename_i a hal
        split
        · rename_i hc2
          rw [Bool.and_eq_true, Bool.not_eq_true'] at hc2
          refine Or.inr ⟨_, rfl, hc2.2, rfl, Or.inr (Or.inr ?_)⟩
          have hbu : (u != "") = false := by
            cases hbu : (u != "") with
            | false => rfl
            | true =>
              exact absurd (show (u != "" && !st.2.contains (keyword, e.1)) = true by
                rw [hbu, hc2.2]; rfl) hc
          rw [bne_eq_false_iff_eq] at hbu
          rw [hbu] at hmu
          exact hmu
        · exact Or.inl rfl
      · exact Or.inl rfl
  · rename_i hmu
    split
    · rename_i a hal
      split
      · rename_i hc2
        rw [Bool.and_eq_true, Bool.not_eq_true'] at hc2
        exact Or.inr ⟨_, rfl, hc2.2, rfl, Or.inr (Or.inl hmu)⟩
      · exact Or.inl rfl
    · exact Or.inl rfl

end ProcessDomainLemmas

section FoldLemmas

variable (ts : String) (sent : Json → String → String) (keyword source : String)
  (overview_text : Json) (urls : List String) (hosts : List (String × String))
  (flat_text : String)

/-- The rows a fold of the engine loop appends carry pairwise-distinct
brands drawn from the processed catalog keys, in order. -/
theorem foldl_processDomain_sublist :
    ∀ (ds : List (String × List String)) (st : List Row × List (String × String)),
      ∃ rows, (ds.foldl (processDomain ts sent keyword source overview_text urls
          hosts flat_text) st).1 = st.1 ++ rows ∧
        List.Sublist (rows.map Row.brand) (ds.map Prod.fst) := by
  intro ds
  induction ds with
  | nil => intro st; exact ⟨[], by simp, by simp⟩
  | cons e rest ih =>
    intro st
    rw [List.foldl_cons]
    rcases processDomain_shape ts sent keyword source overview_text urls hosts
        flat_text st e with heq | ⟨r, hbrand, _, heq, _⟩
    · rw [heq]
      rcases ih st with ⟨rows, h1, h2⟩
      exact ⟨rows, h1, h2.cons e.1⟩
    · rw [heq]
      rcases ih (st.1 ++ [r], st.2 ++ [(keyword, e.1)]) with ⟨rows, h1, h2⟩
      refine ⟨r :: rows, ?_, ?_⟩
      · rw [h1]; simp
      · rw [List.map_cons, hbrand, List.map_cons]
        exact h2.cons₂ e.1

/-- Fold invariant for the priority rule: a row whose brand has a
Priority-1 URL match carries the domain itself as `matchedTerm` (given
that no URL in `hosts` is the empty string). -/
theorem foldl_processDomain_urlterm (hne : ∀ p ∈ hosts, p.1 ≠ "") :
    ∀ (ds : List (String × List String)) (st : List Row × List (String × String)),
      (∀ r ∈ st.1, matchedUrlOf hosts (domainCore r.brand) = none ∨
        r.matchedTerm = r.brand) →
      ∀ r ∈ (ds.foldl (processDomain ts sent keyword source overview_text urls
          hosts flat_text) st).1,
        matchedUrlOf hosts (domainCore r.brand) = none ∨ r.matchedTerm = r.brand := by
  intro ds
  induction ds with
  | nil => intro st hinv r hr; exact hinv r hr
  | cons e rest ih =>
    intro st hinv r hr
    rw [List.foldl_cons] at hr
    rcases processDomain_shape ts sent keyword source overview_text urls hosts
        flat_text st e with heq | ⟨r', hbrand, _, heq, hterm⟩
    · rw [heq] at hr
      exact ih st hinv r hr
    · rw [heq] at hr
      refine ih _ ?_ r hr
      intro r'' hr''
      rcases List.mem_append.mp hr'' with h | h
      · exact hinv r'' h
      · have : r'' = r' := List.mem_singleton.mp h
        subst this
        rcases hterm with h1 | h2 | h3
        · exact Or.inr (by rw [h1, hbrand])
        · exact Or.inl (by rw [hbrand]; exact h2)
        · rcases matchedUrlOf_mem h3 with ⟨p, hp, hp1, _⟩
          exact absurd hp1 (hne p hp)

/-- With the seen pair of the current domain absent, one engine loop step
computes exactly the seen-free loop step on the results component. -/
theorem processDomain_eq_no_seen (st : List Row × List (String × String))
    (e : String × List String)
    (hc : st.2.contains (keyword, e.1) = false) :
    (processDomain ts sent keyword source overview_text urls hosts flat_text st e).1
      = processDomainNoSeen ts sent keyword source overview_text urls hosts
          flat_text st.1 e := by
  simp only [processDomain, processDomainNoSeen, hc, Bool.not_false, Bool.and_true]
  split
  · split
    · rfl
    · split
      · split
        · rfl
        · rfl
      · rfl
  · split
    · split
      · rfl
      · rfl
    · rfl

/-- Folding the engine loop over catalog entries with pairwise-distinct
keys none of which is already seen computes the seen-free fold. -/
theorem foldl_processDomain_no_seen :
    ∀ (ds : List (String × List String)) (st : List Row × List (String × String)),
      (ds.map Prod.fst).Nodup →
      (∀ d ∈ ds.map Prod.fst, (keyword, d) ∉ st.2) →
      (ds.foldl (processDomain ts sent keyword source overview_text urls hosts
          flat_text) st).1
        = ds.foldl (processDomainNoSeen ts sent keyword source overview_text urls
            hosts flat_text) st.1 := by
  intro ds
  induction ds with
  | nil => intro st _ _; rfl
  | cons e rest ih =>
    intro st hnd hseen
    rw [List.map_cons, List.nodup_cons] at hnd
    have hce : (keyword, e.1) ∉ st.2 :=
      hseen e.1 (by rw [List.map_cons]; exact List.mem_cons_self _ _)
    have hcb : st.2.contains (keyword, e.1) = false := by simp [hce]
    rw [List.foldl_cons, List.foldl_cons]
    rw [← processDomain_eq_no_seen ts sent keyword source overview_text urls hosts
        flat_text st e hcb]
    rcases processDomain_shape ts sent keyword source overview_text urls hosts
        flat_text st e with heq | ⟨r, _, _, heq, _⟩
    · rw [heq]
      exact ih st hnd.2 (fun d hd => hseen d (by rw [List.map_cons]; exact List.mem_cons_of_mem _ hd))
    · have hres : (processDomain ts sent keyword source overview_text urls hosts
          flat_text st e).1 = st.1 ++ [r] := by rw [heq]
      rw [heq]
      have := ih (st.1 ++ [r], st.2 ++ [(keyword, e.1)]) hnd.2 ?hseen'
      · rw [← heq] at this
        rw [heq] at this
        exact this
      case hseen' =>
        intro d hd
        intro hmem
        rcases List.mem_append.mp hmem with h | h
        · exact hseen d (by rw [List.map_cons]; exact List.mem_cons_of_mem _ hd) h
        · have : (keyword, d) = (keyword, e.1) := List.mem_singleton.mp h
          have hde : d = e.1 := congrArg Prod.snd this
          exact hnd.1 (hde ▸ hd)

end FoldLemmas

theorem strInStr_empty {t : String} (h : strInStr t "" = true) : t = "" := by
  unfold strInStr at h
  obtain ⟨l⟩ := t
  cases l with
  | nil => rfl
  | cons c cs => exact absurd h (by simp [listIsInfixOf, List.isPrefixOf])

section EmptyPayloadLemmas

variable (ts : String) (sent : Json → String → String) (keyword source : String)
  (overview_text : Json) (urls : List String)

/-- With no URLs and empty flattened text, the engine loop emits nothing:
Priority 1 sees no hosts, and any alias matching the empty text is the
empty string, which is falsy. -/
theorem processDomain_empty_id (st : List Row × List (String × String))
    (e : String × List String) :
    processDomain ts sent keyword source overview_text urls [] "" st e = st := by
  simp only [processDomain]
  split
  · rename_i u hmu
    simp [matchedUrlOf] at hmu
  · split
    · rename_i a hal
      have hal' : e.2.tail.find? (fun t => strInStr t "") = some a := hal
      have ha := List.find?_some hal'
      have : a = "" := strInStr_empty ha
      subst this
      rw [if_neg]
      simp
    · rfl

theorem foldl_processDomain_empty :
    ∀ (ds : List (String × List String)) (st : List Row × List (String × String)),
      ds.foldl (processDomain ts sent keyword source overview_text urls [] "") st
        = st := by
  intro ds
  induction ds with
  | nil => intro st; rfl
  | cons e rest ih =>
    intro st
    rw [List.foldl_cons,
      processDomain_empty_id ts sent keyword source overview_text urls st e]
    exact ih st

end EmptyPayloadLemmas

section EraseTsLemmas

variable (ts₁ ts₂ : String) (sent : Json → String → String) (keyword source : String)
  (overview_text : Json) (urls : List String) (hosts : List (String × String))
  (flat_text : String)

/-- The loop body reads the timestamp only to stamp the emitted row: two
runs differing only in the timestamp stay in lock step, with rows equal up
to the timestamp column. -/
theorem processDomain_eraseTs_step (st₁ st₂ : List Row × List (String × String))
    (e : String × List String) (hseen : st₁.2 = st₂.2)
    (hres : st₁.1.map eraseTs = st₂.1.map eraseTs) :
    (processDomain ts₁ sent keyword source overview_text urls hosts flat_text st₁ e).2
      = (processDomain ts₂ sent keyword source overview_text urls hosts flat_text st₂ e).2 ∧
    (processDomain ts₁ sent keyword source overview_text urls hosts flat_text st₁ e).1.map eraseTs
      = (processDomain ts₂ sent keyword source overview_text urls hosts flat_text st₂ e).1.map eraseTs := by
  simp only [processDomain, hseen]
  split
  · split
    · constructor
      · simp [hseen]
      · simp only [List.map_append, hres, List.map_cons, List.map_nil, eraseTs]
    · split
      · split
        · constructor
          · simp [hseen]
          · simp only [List.map_append, hres, List.map_cons, List.map_nil, eraseTs]
        · exact ⟨hseen, hres⟩
      · exact ⟨hseen, hres⟩
  · split
    · split
      · constructor
        · simp [hseen]
        · simp only [List.map_append, hres, List.map_cons, List.map_nil, eraseTs]
      · exact ⟨hseen, hres⟩
    · exact ⟨hseen, hres⟩

theorem foldl_processDomain_eraseTs :
    ∀ (ds : List (String × List String)) (st₁ st₂ : List Row × List (String × String)),
      st₁.2 = st₂.2 → st₁.1.map eraseTs = st₂.1.map eraseTs →
      (ds.foldl (processDomain ts₁ sent keyword source overview_text urls hosts
          flat_text) st₁).1.map eraseTs
        = (ds.foldl (processDomain ts₂ sent keyword source overview_text urls hosts
            flat_text) st₂).1.map eraseTs := by
  intro ds
  induction ds with
  | nil => intro st₁ st₂ _ hres; exact hres
  | cons e rest ih =>
    intro st₁ st₂ hseen hres
    rw [List.foldl_cons, List.foldl_cons]
    obtain ⟨h2, h1⟩ := processDomain_eraseTs_step ts₁ ts₂ sent keyword source
      overview_text urls hosts flat_text st₁ st₂ e hseen hres
    exact ih _ _ h2 h1

end EraseTsLemmas

/-- A successful `find_brands_in_aio` call decomposes into a successful
catalog load, a successful link extraction, and the engine fold. -/
theorem find_brands_ok_elim {ts : String} {sent : Json → String → String}
    {brands : Json} {aio : List (String × Json)} {keyword source : String}
    {rs : List Row}
    (h : find_brands_in_aio ts sent brands aio keyword source = .ok rs) :
    ∃ bm us, build_brand_map brands = .ok bm ∧
      extract_urls_from_aio (.obj aio) = .ok us ∧
      rs = (bm.foldl (processDomain ts sent keyword source (getOverviewText aio)
        us (mkHosts us) (flatTextOf aio)) ([], [])).1 := by
  unfold find_brands_in_aio at h
  cases hbm : build_brand_map brands with
  | error e => cases e; rw [hbm] at h; exact absurd h (by simp)
  | ok bm =>
    rw [hbm] at h
    simp only [exceptBindOk] at h
    cases hus : extract_urls_from_aio (.obj aio) with
    | error e => cases e; rw [hus] at h; exact absurd h (by simp)
    | ok us =>
      rw [hus] at h
      simp only [exceptBindOk] at h
      exact ⟨bm, us, rfl, rfl, (Except.ok.inj h).symm⟩

/-- C1: a single call to the match engine returns at most one record per
distinct catalog domain: the brand column of a successful result is
duplicate-free, for every overview payload, catalog, keyword and source. -/
theorem find_brands_at_most_one_per_domain (ts : String)
    (sent : Json → String → String) (brands : Json)
    (aio : List (String × Json)) (keyword source : String) (rs : List Row)
    (h : find_brands_in_aio ts sent brands aio keyword source = .ok rs) :
    (rs.map Row.brand).Nodup := by
  rcases find_brands_ok_elim h with ⟨bm, us, hbm, hus, hrs⟩
  rcases foldl_processDomain_sublist ts sent keyword source (getOverviewText aio)
      us (mkHosts us) (flatTextOf aio) bm ([], []) with ⟨rows, h1, h2⟩
  subst hrs
  rw [h1]
  simp only [List.nil_append]
  exact h2.nodup (build_brand_map_keys_nodup hbm)

theorem find_brands_at_most_one_per_domain_witness :
    find_brands_in_aio "TS" (fun _ _ => "neutral")
        (.obj [("nike.com", .arr [.str "nike"]), ("adidas.com", .arr [.str "adidas"])])
        [("answer", .str "nike and adidas shoes")] "kw" "S"
      = .ok [⟨"TS", "kw", "nike.com", "nike", .str "nike and adidas shoes",
              "neutral", "nike", "", "S"⟩,
             ⟨"TS", "kw", "adidas.com", "adidas", .str "nike and adidas shoes",
              "neutral", "adidas", "", "S"⟩] ∧
    (([⟨"TS", "kw", "nike.com", "nike", .str "nike and adidas shoes",
        "neutral", "nike", "", "S"⟩,
       ⟨"TS", "kw", "adidas.com", "adidas", .str "nike and adidas shoes",
        "neutral", "adidas", "", "S"⟩] : List Row).map Row.brand).Nodup :=
  ⟨rfl, find_brands_at_most_one_per_domain "TS" (fun _ _ => "neutral")
    (.obj [("nike.com", .arr [.str "nike"]), ("adidas.com", .arr [.str "adidas"])])
    [("answer", .str "nike and adidas shoes")] "kw" "S" _ rfl⟩

/-- C2: when a domain has a qualifying URL in the overview (some extracted
URL's normalized host ends with the domain core), the record the engine
emits for that domain carries the domain itself as `matchedTerm` — URL
evidence wins, the alias tier is never the source of the record. -/
theorem find_brands_url_priority (ts : String) (sent : Json → String → String)
    (brands : Json) (aio : List (String × Json)) (keyword source : String)
    (rs : List Row) (us : List String) (r : Row)
    (h : find_brands_in_aio ts sent brands aio keyword source = .ok rs)
    (hus : extract_urls_from_aio (.obj aio) = .ok us)
    (hr : r ∈ rs)
    (hmatch : (mkHosts us).any
      (fun p => strEndsWith p.2 (domainCore r.brand)) = true) :
    r.matchedTerm = r.brand := by
  rcases find_brands_ok_elim h with ⟨bm, us', hbm, hus', hrs⟩
  rw [hus] at hus'
  have husu : us = us' := Except.ok.inj hus'
  subst husu
  have hne : ∀ p ∈ mkHosts us, p.1 ≠ "" := by
    intro p hp
    rcases List.mem_map.mp hp with ⟨u, hu, hpu⟩
    have hhttp := (extract_origin hus u hu).1
    intro hemp
    rw [← hpu] at hemp
    simp only at hemp
    subst hemp
    exact absurd hhttp (by simp [strStartsWith, List.isPrefixOf])
  subst hrs
  have hinv := foldl_processDomain_urlterm ts sent keyword source
    (getOverviewText aio) us (mkHosts us) (flatTextOf aio) hne bm ([], [])
    (by intro r' hr'; cases hr') r hr
  rcases hinv with hnone | hterm
  · exfalso
    unfold matchedUrlOf at hnone
    cases hf : (mkHosts us).find? (fun p => strEndsWith p.2 (domainCore r.brand)) with
    | some p => rw [hf] at hnone; exact absurd hnone (by simp)
    | none =>
      have hall := List.find?_eq_none.mp hf
      rcases List.any_eq_true.mp hmatch with ⟨p, hp, hpe⟩
      exact (hall p hp) hpe
  · exact hterm

theorem find_brands_url_priority_witness :
    find_brands_in_aio "TS" (fun _ _ => "neutral")
        (.obj [("nike.com", .arr [.str "nike"])])
        [("references", .arr [.obj [("link", .str "https://www.nike.com/new")]]),
         ("answer", .str "best nike shoes")] "kw" "S"
      = .ok [⟨"TS", "kw", "nike.com", "nike.com", .str "best nike shoes",
              "neutral", "https://www.nike.com/new", "https://www.nike.com/new", "S"⟩] ∧
    strInStr "nike" (flatTextOf
      [("references", .arr [.obj [("link", .str "https://www.nike.com/new")]]),
       ("answer", .str "best nike shoes")]) = true ∧
    (⟨"TS", "kw", "nike.com", "nike.com", .str "best nike shoes", "neutral",
      "https://www.nike.com/new", "https://www.nike.com/new", "S"⟩ : Row).matchedTerm
      = (⟨"TS", "kw", "nike.com", "nike.com", .str "best nike shoes", "neutral",
         "https://www.nike.com/new", "https://www.nike.com/new", "S"⟩ : Row).brand :=
  ⟨rfl, rfl,
   find_brands_url_priority "TS" (fun _ _ => "neutral")
     (.obj [("nike.com", .arr [.str "nike"])])
     [("references", .arr [.obj [("link", .str "https://www.nike.com/new")]]),
      ("answer", .str "best nike shoes")] "kw" "S" _ ["https://www.nike.com/new"] _
     rfl rfl (List.mem_singleton.mpr rfl) rfl⟩

/-- C3: Priority 1 qualifies a URL by a raw string-suffix test on the
normalized host, with no label boundary: `shop.nike.com` matches domain
`nike.com`, and so does `notnike.com` — the engine emits a URL-evidence
record for `nike.com` from a `notnike.com` reference link. -/
theorem suffix_match_crosses_label_boundary :
    find_brands_in_aio "TS" (fun _ _ => "neutral")
        (.obj [("nike.com", .arr [.str "nike"])])
        [("references", .arr [.obj [("link", .str "https://notnike.com/x")]])]
        "kw" "SerpApi"
      = .ok [⟨"TS", "kw", "nike.com", "nike.com", .str "", "neutral",
             "https://notnike.com/x", "https://notnike.com/x", "SerpApi"⟩] ∧
    find_brands_in_aio "TS" (fun _ _ => "neutral")
        (.obj [("nike.com", .arr [.str "nike"])])
        [("references", .arr [.obj [("link", .str "https://shop.nike.com/x")]])]
        "kw" "SerpApi"
      = .ok [⟨"TS", "kw", "nike.com", "nike.com", .str "", "neutral",
             "https://shop.nike.com/x", "https://shop.nike.com/x", "SerpApi"⟩] ∧
    normalize_host "https://notnike.com/x" = "notnike.com" ∧
    normalize_host "https://shop.nike.com/x" = "shop.nike.com" ∧
    strEndsWith "notnike.com" (domainCore "nike.com") = true ∧
    strEndsWith "shop.nike.com" (domainCore "nike.com") = true :=
  ⟨rfl, rfl, rfl, rfl, rfl, rfl⟩

/-- C4: `normalize_host` never raises: it returns the lowercased netloc
with a single leading `www.` label stripped when the URL parses, and the
empty string on any non-normalizable input; in particular the two
round-trip examples hold. -/
theorem normalize_host_contract :
    (∀ u : String,
      (∃ h, urlsplitNetloc u = .ok h ∧
        normalize_host u = (if strStartsWith (lowerStr h) "www."
          then strDrop (lowerStr h) 4 else lowerStr h)) ∨
      (urlsplitNetloc u = .error () ∧ normalize_host u = "")) ∧
    normalize_host "https://www.Nike.com/shoes?x=1" = "nike.com" ∧
    normalize_host "not a url" = "" := by
  refine ⟨?_, rfl, rfl⟩
  intro u
  cases hn : urlsplitNetloc u with
  | ok h =>
    refine Or.inl ⟨h, rfl, ?_⟩
    unfold normalize_host
    rw [hn]
  | error e =>
    cases e
    refine Or.inr ⟨rfl, ?_⟩
    unfold normalize_host
    rw [hn]

/-- C5: a string occurring in the payload but at none of the `"link"`
positions the extractor reads is absent from `extract_urls_from_aio`'s
result and present among `flatten_json`'s strings. -/
theorem generic_text_urls_not_extracted (p : Json) (s : String)
    (us : List String) (hok : extract_urls_from_aio p = .ok us)
    (hocc : occursStr s p = true)
    (hnl : Json.str s ∉ link_field_values p) :
    s ∉ us ∧ s ∈ flatten_json p := by
  constructor
  · intro hmem
    exact hnl (extract_origin hok s hmem).2.1
  · exact (occursStr_iff_flatten s p).mp hocc

theorem generic_text_urls_not_extracted_witness :
    extract_urls_from_aio (.obj [("answer", .str "https://nike.com")]) = .ok [] ∧
    occursStr "https://nike.com" (.obj [("answer", .str "https://nike.com")]) = true ∧
    ("https://nike.com" ∉ ([] : List String) ∧
      "https://nike.com" ∈ flatten_json (.obj [("answer", .str "https://nike.com")])) :=
  ⟨rfl, rfl,
   generic_text_urls_not_extracted (.obj [("answer", .str "https://nike.com")])
     "https://nike.com" [] rfl rfl
     (fun h => nomatch (show Json.str "https://nike.com" ∈ ([] : List Json) from h))⟩

/-- C6: on the empty overview payload the engine returns the empty result
list without raising, for every well-formed brand catalog (domains mapped
to arrays of alias strings), keyword and source. -/
theorem find_brands_empty_payload (ts : String) (sent : Json → String → String)
    (brands : Json) (keyword source : String)
    (h : isWfCatalog brands = true) :
    find_brands_in_aio ts sent brands [] keyword source = .ok [] := by
  rcases build_ok_of_wf h with ⟨bm, hbm⟩
  unfold find_brands_in_aio
  rw [hbm]
  simp only [exceptBindOk]
  have hex : extract_urls_from_aio (.obj ([] : List (String × Json))) = .ok [] := rfl
  rw [hex]
  simp only [exceptBindOk]
  have hm : mkHosts ([] : List String) = [] := rfl
  have hf : flatTextOf ([] : List (String × Json)) = "" := rfl
  rw [hm, hf, foldl_processDomain_empty ts sent keyword source
    (getOverviewText []) [] bm ([], [])]
  rfl

theorem find_brands_empty_payload_witness :
    isWfCatalog (.obj [("nike.com", .arr [.str "nike", .str "air jordan"])]) = true ∧
    find_brands_in_aio "TS" (fun _ _ => "neutral")
        (.obj [("nike.com", .arr [.str "nike", .str "air jordan"])]) [] "kw" "S"
      = .ok [] :=
  ⟨rfl, find_brands_empty_payload "TS" (fun _ _ => "neutral")
    (.obj [("nike.com", .arr [.str "nike", .str "air jordan"])]) "kw" "S" rfl⟩

/-- C7: a catalog entry with a non-string alias is not skipped with a
warning — lowercasing it raises `AttributeError` and the exception escapes
the whole call (first conjunct); an entry with an empty alias list is not
skipped either: it stays in the catalog and still produces a URL-evidence
record (second conjunct). -/
theorem malformed_catalog_entry_raises :
    find_brands_in_aio "TS" (fun _ _ => "neutral")
        (.obj [("nike.com", .arr [.str "nike", .num 42])]) [] "kw" "SerpApi"
      = .error () ∧
    find_brands_in_aio "TS" (fun _ _ => "neutral")
        (.obj [("adidas.com", .arr [])])
        [("references", .arr [.obj [("link", .str "https://adidas.com/x")]])]
        "kw" "SerpApi"
      = .ok [⟨"TS", "kw", "adidas.com", "adidas.com", .str "", "neutral",
             "https://adidas.com/x", "https://adidas.com/x", "SerpApi"⟩] :=
  ⟨rfl, rfl⟩

/-- C9: the per-call `seen` set is redundant: because `brand_map`'s keys
are distinct dict keys, the membership test is always true when evaluated,
and the engine with the `seen` set removed returns the identical result
for every input. -/
theorem find_brands_seen_redundant (ts : String) (sent : Json → String → String)
    (brands : Json) (aio : List (String × Json)) (keyword source : String) :
    find_brands_in_aio ts sent brands aio keyword source
      = find_brands_in_aio_no_seen ts sent brands aio keyword source := by
  unfold find_brands_in_aio find_brands_in_aio_no_seen
  cases hbm : build_brand_map brands with
  | error e => cases e; rfl
  | ok bm =>
    simp only [exceptBindOk]
    cases hus : extract_urls_from_aio (.obj aio) with
    | error e => cases e; rfl
    | ok us =>
      simp only [exceptBindOk]
      have := foldl_processDomain_no_seen ts sent keyword source
        (getOverviewText aio) us (mkHosts us) (flatTextOf aio) bm ([], [])
        (build_brand_map_keys_nodup hbm) (by intro d _ hmem; cases hmem)
      rw [this]

/-- C10: every string a successful `extract_urls_from_aio` returns is also
collected by `flatten_json`'s unrestricted recursive walk of the same
payload. -/
theorem extract_urls_subset_flatten (p : Json) (us : List String)
    (hok : extract_urls_from_aio p = .ok us) :
    ∀ s ∈ us, s ∈ flatten_json p :=
  fun s hs => (extract_origin hok s hs).2.2

theorem extract_urls_subset_flatten_witness :
    extract_urls_from_aio
        (.obj [("references", .arr [.obj [("link", .str "https://www.nike.com/new")]]),
               ("answer", .str "best nike shoes")])
      = .ok ["https://www.nike.com/new"] ∧
    "https://www.nike.com/new" ∈ flatten_json
        (.obj [("references", .arr [.obj [("link", .str "https://www.nike.com/new")]]),
               ("answer", .str "best nike shoes")]) :=
  ⟨rfl,
   extract_urls_subset_flatten
     (.obj [("references", .arr [.obj [("link", .str "https://www.nike.com/new")]]),
            ("answer", .str "best nike shoes")])
     ["https://www.nike.com/new"] rfl "https://www.nike.com/new"
     (List.mem_singleton.mpr rfl)⟩

/-- C8 (amended): the engine's output is determined by its explicit
arguments together with the ambient values the call reads — here the clock
value `ts` influences nothing but each record's timestamp column: runs
differing only in the clock reading produce identical results after
blanking the timestamp field. -/
theorem find_brands_ts_only_timestamp (ts₁ ts₂ : String)
    (sent : Json → String → String) (brands : Json)
    (aio : List (String × Json)) (keyword source : String) :
    Except.map (List.map eraseTs)
        (find_brands_in_aio ts₁ sent brands aio keyword source)
      = Except.map (List.map eraseTs)
          (find_brands_in_aio ts₂ sent brands aio keyword source) := by
  unfold find_brands_in_aio
  cases hbm : build_brand_map brands with
  | error e => cases e; rfl
  | ok bm =>
    simp only [exceptBindOk]
    cases hus : extract_urls_from_aio (.obj aio) with
    | error e => cases e; rfl
    | ok us =>
      simp only [exceptBindOk]
      have heq := foldl_processDomain_eraseTs ts₁ ts₂ sent keyword source
        (getOverviewText aio) us (mkHosts us) (flatTextOf aio) bm
        ([], []) ([], []) rfl rfl
      exact congrArg Except.ok heq

/-- C8 (counterexample): `find_brands_in_aio` is not a pure function of the
Python call's arguments (payload, brands file, keyword, source): two calls
with identical arguments but different wall-clock readings — the hidden
input `_now_ts()` reads — return different result lists. -/
theorem find_brands_not_pure_in_explicit_args :
    find_brands_in_aio "2024-05-01 00:00:00" (fun _ _ => "neutral")
        (.obj [("nike.com", .arr [.str "nike"])])
        [("answer", .str "best nike shoes")] "kw" "SerpApi"
      ≠ find_brands_in_aio "2024-05-01 00:00:01" (fun _ _ => "neutral")
        (.obj [("nike.com", .arr [.str "nike"])])
        [("answer", .str "best nike shoes")] "kw" "SerpApi" := by
  intro h
  have h1 : Except.map (List.map Row.ts)
      (find_brands_in_aio "2024-05-01 00:00:00" (fun _ _ => "neutral")
        (.obj [("nike.com", .arr [.str "nike"])])
        [("answer", .str "best nike shoes")] "kw" "SerpApi")
      = .ok ["2024-05-01 00:00:00"] := rfl
  have h2 : Except.map (List.map Row.ts)
      (find_brands_in_aio "2024-05-01 00:00:01" (fun _ _ => "neutral")
        (.obj [("nike.com", .arr [.str "nike"])])
        [("answer", .str "best nike shoes")] "kw" "SerpApi")
      = .ok ["2024-05-01 00:00:01"] := rfl
  rw [h] at h1
  rw [h2] at h1
  have h3 := Except.ok.inj h1
  exact absurd h3 (by decide)
